import Mathlib

/-!
Shallow embedding of the chat-history normalization core of the
`linguatravel` repository: `normalize_history` (src/utils/history.py),
`to_internal_history` and the legacy branch of `to_gradio_history`
(src/ui.py).  Python values are modelled by the inductive `PyVal`;
operations that can raise a Python exception return `Except String`.
-/

namespace LinguaTravel

/-- Model of the Python values the history code manipulates: strings,
integers, booleans, `None`, lists, tuples, and string-keyed dicts
(modelled as association lists; lookup takes the first matching key). -/
inductive PyVal where
  | str (s : String)
  | int (n : Int)
  | bool (b : Bool)
  | none
  | list (xs : List PyVal)
  | tuple (xs : List PyVal)
  | dict (kvs : List (String × PyVal))

/-- Lookup of a key in a dict, Python `item.get(key)` with no default. -/
def dget? : List (String × PyVal) → String → Option PyVal
  | [], _ => Option.none
  | (k, v) :: rest, key => if k = key then some v else dget? rest key

/-- Python `item.get(key, dflt)`. -/
def dgetD (kvs : List (String × PyVal)) (key : String) (dflt : PyVal) : PyVal :=
  (dget? kvs key).getD dflt

/-- Python `key in item` for a dict. -/
def hasKey (kvs : List (String × PyVal)) (key : String) : Bool :=
  (dget? kvs key).isSome

/-- A single-quote character, used by the Python `repr` of strings. -/
def sq : String := String.singleton (Char.ofNat 39)

/-- Comma-space join, as in the Python textual form of containers. -/
def commaJoin (xs : List String) : String := String.intercalate ", " xs

mutual
/-- Python `repr()` of a value: strings are shown in quotes, `True` and
`None` keep their Python spelling, containers show their elements'
reprs.  (The embedding assumes strings need no escape sequences.) -/
def pyRepr : PyVal → String
  | .str s => sq ++ s ++ sq
  | .int n => toString n
  | .bool b => if b then "True" else "False"
  | .none => "None"
  | .list xs => "[" ++ commaJoin (pyReprList xs) ++ "]"
  | .tuple xs =>
    "(" ++ commaJoin (pyReprList xs) ++ (if xs.length = 1 then ",)" else ")")
  | .dict kvs => "\x7b" ++ commaJoin (pyReprKVs kvs) ++ "\x7d"

/-- Reprs of the elements of a container. -/
def pyReprList : List PyVal → List String
  | [] => []
  | x :: xs => pyRepr x :: pyReprList xs

/-- Reprs of the key-value entries of a dict. -/
def pyReprKVs : List (String × PyVal) → List String
  | [] => []
  | (k, v) :: rest => (sq ++ k ++ sq ++ ": " ++ pyRepr v) :: pyReprKVs rest
end

/-- Python `str()`: the identity on strings, `repr` on everything else
(which is what `str` produces on ints, booleans, `None`, and
containers). -/
def pyStr : PyVal → String
  | .str s => s
  | v => pyRepr v

/-- Python truthiness (`bool(v)`), as used by `if not history:`. -/
def truthy : PyVal → Bool
  | .str s => s != ""
  | .int n => n != 0
  | .bool b => b
  | .none => false
  | .list xs => !xs.isEmpty
  | .tuple xs => !xs.isEmpty
  | .dict kvs => !kvs.isEmpty

/-- Iteration over a Python value, as performed by `for idx, item in
enumerate(history)`: lists and tuples yield their elements, a string
yields its characters as one-character strings, a dict yields its keys;
anything else raises `TypeError`. -/
def elements : PyVal → Except String (List PyVal)
  | .list xs => .ok xs
  | .tuple xs => .ok xs
  | .str s => .ok (s.toList.map fun c => .str (String.singleton c))
  | .dict kvs => .ok (kvs.map fun kv => .str kv.1)
  | _ => .error "TypeError: object is not iterable"

/-- One normalized turn, the Python list `[str(a), str(b)]` appended to
`normalized` (the string coercions are applied before `mkTurn`). -/
def mkTurn (a b : String) : PyVal := .list [.str a, .str b]

/-- Text extracted from one entry of a `messages` sequence:
`str(left.get("content") if isinstance(left, dict) else str(left))`
(history.py lines 74-75); a dict missing `"content"` yields `"None"`. -/
def msgText (m : PyVal) : String :=
  match m with
  | .dict kvs => pyStr (dgetD kvs "content" .none)
  | v => pyStr v

/-- Grouping of a `messages` sequence two at a time (history.py lines
70-76): the loop `for i in range(0, len(msgs), 2)` pairs indices 0&1,
2&3, ...; a missing right partner is the empty string sentinel. -/
def pairMessages : List PyVal → List PyVal
  | [] => []
  | [x] => [mkTurn (msgText x) (msgText (.str ""))]
  | x :: y :: rest => mkTurn (msgText x) (msgText y) :: pairMessages rest

/-- The list/tuple branch of `normalize_history` (history.py lines
31-41): two elements form a turn, one element gets an empty assistant
side, three or more join the tail with single spaces; a zero-length
item falls into the `else` branch whose `item[0]` raises `IndexError`. -/
def normSeqItem (xs : List PyVal) : Except String (List PyVal) :=
  match xs with
  | [a, b] => .ok [mkTurn (pyStr a) (pyStr b)]
  | [a] => .ok [mkTurn (pyStr a) (pyStr (.str ""))]
  | [] => .error "IndexError: list index out of range"
  | a :: rest => .ok [mkTurn (pyStr a) (pyStr (.str (String.intercalate " " (rest.map pyStr))))]

/-- Python `role == "user"` where `role` is `item.get("role")`. -/
def isUserRole : Option PyVal → Bool
  | some (.str s) => s == "user"
  | _ => false

/-- Conversion of one history item (the body of the loop in
`normalize_history`, history.py lines 29-84), branch order as in the
source: list/tuple first, then the dict shapes `user`/`bot`,
`role`+`content`, `messages`, the stringified-dict fallback, and the
scalar fallback. -/
def normItem (item : PyVal) : Except String (List PyVal) :=
  match item with
  | .list xs => normSeqItem xs
  | .tuple xs => normSeqItem xs
  | .dict kvs =>
    if hasKey kvs "user" || hasKey kvs "bot" then
      .ok [mkTurn (pyStr (dgetD kvs "user" (.str ""))) (pyStr (dgetD kvs "bot" (.str "")))]
    else if hasKey kvs "role" && hasKey kvs "content" then
      (if isUserRole (dget? kvs "role") then
        .ok [mkTurn (pyStr (dgetD kvs "content" (.str ""))) ""]
      else
        .ok [mkTurn "" (pyStr (dgetD kvs "content" (.str "")))])
    else
      (match dget? kvs "messages" with
      | some (.list msgs) => .ok (pairMessages msgs)
      | some (.tuple msgs) => .ok (pairMessages msgs)
      | _ => .ok [mkTurn (pyStr (.dict kvs)) ""])
  | v => .ok [mkTurn (pyStr v) ""]

/-- The loop of `normalize_history` over the history's items, stopping
at the first item that raises. -/
def normLoop : List PyVal → Except String (List PyVal)
  | [] => .ok []
  | x :: xs => do
    let t ← normItem x
    let rest ← normLoop xs
    return t ++ rest

/-- Embedding of `normalize_history` (history.py lines 12-86): a falsy
history returns `[]`; otherwise the history is iterated and each item
converted by `normItem`. -/
def normalize_history (history : PyVal) : Except String (List PyVal) :=
  if truthy history then (elements history).bind normLoop else .ok []

/-- The check `isinstance(history[0], dict) and "role" in history[0]`
of `to_internal_history` (ui.py line 38). -/
def startsWithRoleDict : List PyVal → Bool
  | PyVal.dict kvs :: _ => hasKey kvs "role"
  | _ => false

/-- An internal message dict `{"role": role, "content": content}` with
a string content. -/
def mkMsg (role content : String) : PyVal :=
  .dict [("role", .str role), ("content", .str content)]

/-- Tuple unpacking `user_msg, assistant_msg = turn` of a length-2
sequence, as performed by `for user_msg, assistant_msg in normalized`
(ui.py line 47); any other shape raises. -/
def unpack2 : PyVal → Except String (PyVal × PyVal)
  | .list [a, b] => .ok (a, b)
  | .tuple [a, b] => .ok (a, b)
  | _ => .error "ValueError: cannot unpack"

/-- The pair-to-dict loop of `to_internal_history` (ui.py lines 46-52):
for each normalized turn, append a user message if the user side is
truthy, then an assistant message if the assistant side is truthy. -/
def pairsToInternal : List PyVal → Except String (List PyVal)
  | [] => .ok []
  | t :: ts => do
    let (u, a) ← unpack2 t
    let rest ← pairsToInternal ts
    return (if truthy u then [PyVal.dict [("role", .str "user"), ("content", u)]] else []) ++
      (if truthy a then [PyVal.dict [("role", .str "assistant"), ("content", a)]] else []) ++ rest

/-- The elements of a list or tuple, used for the
`isinstance(history, (list, tuple))` test of `to_internal_history`. -/
def seqElems? : PyVal → Option (List PyVal)
  | .list xs => some xs
  | .tuple xs => some xs
  | _ => Option.none

/-- Embedding of `to_internal_history` (ui.py lines 18-52): falsy or
non-list/tuple or empty input returns `[]`; a history whose first
element is a dict with a `"role"` key is returned unchanged; anything
else is normalized and converted to role/content dicts. -/
def to_internal_history (history : PyVal) : Except String (List PyVal) :=
  if truthy history then
    match seqElems? history with
    | Option.none => .ok []
    | some xs =>
      if xs.length = 0 then .ok []
      else if startsWithRoleDict xs then .ok xs
      else (normalize_history history).bind pairsToInternal
  else .ok []

/-!  The legacy (pre-6.0 Gradio) branch of `to_gradio_history` works on
the internal message dicts, whose relevant values are strings; it is
embedded over string-valued association lists. -/

/-- A message dict with string keys and string values, the shape
`to_gradio_history` consumes in legacy mode. -/
abbrev SDict := List (String × String)

/-- Lookup in a string-valued dict (`m.get(key)`). -/
def sget? : SDict → String → Option String
  | [], _ => Option.none
  | (k, v) :: rest, key => if k = key then some v else sget? rest key

/-- Lookup with a default (`m.get(key, dflt)`). -/
def sgetD (m : SDict) (key dflt : String) : String :=
  (sget? m key).getD dflt

/-- Python `history[i].get("role") == role`. -/
def isRole (role : String) (m : SDict) : Bool :=
  sget? m "role" == some role

/-- One accumulation step of a run's content: `if acc: acc += "\n"`
then `acc += content` (ui.py lines 78-80 and 85-87). -/
def joinStep (acc c : String) : String :=
  (if acc != "" then acc ++ "\n" else acc) ++ c

/-- One inner `while` of the legacy conversion (ui.py lines 77-81 or
84-88): consume consecutive messages of the given role, accumulating
their contents, and return the accumulated text with the rest of the
messages. -/
def takeRoleRun (role : String) : List SDict → String → String × List SDict
  | [], acc => (acc, [])
  | m :: rest, acc =>
    if isRole role m then takeRoleRun role rest (joinStep acc (sgetD m "content" ""))
    else (acc, m :: rest)

theorem takeRoleRun_length_le (role : String) :
    ∀ (l : List SDict) (acc : String), (takeRoleRun role l acc).2.length ≤ l.length := by
  intro l
  induction l with
  | nil => intro acc; simp [takeRoleRun]
  | cons m rest ih =>
    intro acc
    by_cases h : isRole role m
    · simp only [takeRoleRun, h, if_true]
      exact le_trans (ih _) (Nat.le_succ _)
    · simp [takeRoleRun, h]

theorem takeRoleRun_length_lt (role : String) (m : SDict) (rest : List SDict) (acc : String)
    (h : isRole role m = true) :
    (takeRoleRun role (m :: rest) acc).2.length < (m :: rest).length := by
  simp only [takeRoleRun, h, if_true]
  exact Nat.lt_succ_of_le (takeRoleRun_length_le role rest _)

theorem takeRoleRun_stop (role : String) (m : SDict) (rest : List SDict) (acc : String)
    (h : isRole role m = false) :
    takeRoleRun role (m :: rest) acc = (acc, m :: rest) := by
  simp [takeRoleRun, h]

/-- Embedding of the legacy branch of `to_gradio_history` (ui.py lines
62-98), rendered recursively: the outer `while i < len(history)` first
collects a user run, then an assistant run, emits the pair when a side
is non-empty and continues after them; a message of any other role is
skipped without emitting. -/
def to_gradio_history_legacy (l : List SDict) : List (String × String) :=
  match l with
  | [] => []
  | m :: rest =>
    if h : (isRole "user" m || isRole "assistant" m) = true then
      let p1 := takeRoleRun "user" (m :: rest) ""
      let p2 := takeRoleRun "assistant" p1.2 ""
      (if p1.1 != "" || p2.1 != "" then [(p1.1, p2.1)] else []) ++ to_gradio_history_legacy p2.2
    else
      to_gradio_history_legacy rest
termination_by l.length
decreasing_by
  · rcases Bool.or_eq_true_iff.mp h with hu | ha
    · exact Nat.lt_of_le_of_lt (takeRoleRun_length_le "assistant" _ _)
        (takeRoleRun_length_lt "user" m rest "" hu)
    · by_cases hu : isRole "user" m
      · exact Nat.lt_of_le_of_lt (takeRoleRun_length_le "assistant" _ _)
          (takeRoleRun_length_lt "user" m rest "" hu)
      · rw [takeRoleRun_stop "user" m rest "" (Bool.eq_false_iff.mpr hu)]
        exact takeRoleRun_length_lt "assistant" m rest "" ha
  · simp

/-- Join a run's contents with newline separators, as the scan
accumulates them: no separator is emitted while the accumulated text is
still empty. -/
def joinNL (xs : List String) : String := xs.foldl joinStep ""

theorem length_dropWhile_le' {α : Type} (p : α → Bool) :
    ∀ l : List α, (l.dropWhile p).length ≤ l.length := by
  intro l
  induction l with
  | nil => simp [List.dropWhile]
  | cons x xs ih =>
    by_cases h : p x
    · rw [List.dropWhile_cons_of_pos h]
      exact le_trans ih (Nat.le_succ _)
    · rw [List.dropWhile_cons_of_neg (by simpa using h)]

theorem drop2_length_lt (m : SDict) (rest : List SDict)
    (h : (isRole "user" m || isRole "assistant" m) = true) :
    (((m :: rest).dropWhile (isRole "user")).dropWhile (isRole "assistant")).length
      < (m :: rest).length := by
  by_cases hu : isRole "user" m
  · rw [List.dropWhile_cons_of_pos hu]
    have h1 := length_dropWhile_le' (isRole "assistant") (rest.dropWhile (isRole "user"))
    have h2 := length_dropWhile_le' (isRole "user") rest
    simp only [List.length_cons]
    omega
  · have ha : isRole "assistant" m = true := by
      rcases Bool.or_eq_true_iff.mp h with h' | h'
      · exact absurd h' hu
      · exact h'
    rw [List.dropWhile_cons_of_neg (by simpa using hu), List.dropWhile_cons_of_pos ha]
    have h1 := length_dropWhile_le' (isRole "assistant") rest
    simp only [List.length_cons]
    omega

/-- The legacy-pairs conversion as the specification words it: consume
a maximal run of consecutive user messages, then a maximal run of
consecutive assistant messages, join each run's contents with newline
separators, emit the pair exactly when at least one side is non-empty,
skip one position for a message of any other role, and repeat. -/
def specLegacyPairs (l : List SDict) : List (String × String) :=
  match l with
  | [] => []
  | m :: rest =>
    if h : (isRole "user" m || isRole "assistant" m) = true then
      let urun := (m :: rest).takeWhile (isRole "user")
      let r1 := (m :: rest).dropWhile (isRole "user")
      let arun := r1.takeWhile (isRole "assistant")
      let r2 := r1.dropWhile (isRole "assistant")
      let u := joinNL (urun.map fun x => sgetD x "content" "")
      let a := joinNL (arun.map fun x => sgetD x "content" "")
      (if u != "" || a != "" then [(u, a)] else []) ++ specLegacyPairs r2
    else
      specLegacyPairs rest
termination_by l.length
decreasing_by
  · exact drop2_length_lt m rest h
  · simp

/-- The inner content-collecting `while` computes the newline join of
the contents of the maximal run of messages with the given role, and
stops at the rest of the list. -/
theorem takeRoleRun_eq (role : String) :
    ∀ (l : List SDict) (acc : String),
      takeRoleRun role l acc =
        (((l.takeWhile (isRole role)).map fun x => sgetD x "content" "").foldl joinStep acc,
          l.dropWhile (isRole role)) := by
  intro l
  induction l with
  | nil => intro acc; simp [takeRoleRun]
  | cons m rest ih =>
    intro acc
    by_cases h : isRole role m
    · rw [List.takeWhile_cons_of_pos h, List.dropWhile_cons_of_pos h]
      simp only [takeRoleRun, h, if_true, List.map_cons, List.foldl_cons]
      exact ih _
    · rw [List.takeWhile_cons_of_neg (by simpa using h),
        List.dropWhile_cons_of_neg (by simpa using h)]
      simp [takeRoleRun, h]

/-- The embedded legacy conversion agrees with the specification's scan
on every message list. -/
theorem to_gradio_history_legacy_eq_spec :
    ∀ l : List SDict, to_gradio_history_legacy l = specLegacyPairs l
  | [] => by
    rw [to_gradio_history_legacy, specLegacyPairs]
  | m :: rest => by
    rw [to_gradio_history_legacy, specLegacyPairs]
    by_cases h : (isRole "user" m || isRole "assistant" m) = true
    · simp only [h, dif_pos, takeRoleRun_eq, joinNL]
      rw [to_gradio_history_legacy_eq_spec
        (((m :: rest).dropWhile (isRole "user")).dropWhile (isRole "assistant"))]
    · simp only [h, dif_neg, Bool.not_eq_true]
      exact to_gradio_history_legacy_eq_spec rest
termination_by l => l.length
decreasing_by
  · exact drop2_length_lt m rest h
  · simp

/-!  Helper lemmas about `normalize_history`. -/

theorem normalize_history_list (xs : List PyVal) :
    normalize_history (.list xs) = normLoop xs := by
  cases xs with
  | nil => simp [normalize_history, truthy, normLoop, elements]
  | cons x rest =>
    simp [normalize_history, truthy, elements, Except.bind]

theorem except_bind_ok {ε α β : Type} (a : α) (f : α → Except ε β) :
    (Except.ok a >>= f) = f a := rfl

theorem except_bind_error {ε α β : Type} (e : ε) (f : α → Except ε β) :
    ((Except.error e : Except ε α) >>= f) = Except.error e := rfl

theorem normLoop_ok_of (g : PyVal → List PyVal) :
    ∀ xs : List PyVal, (∀ x ∈ xs, normItem x = .ok (g x)) →
      normLoop xs = .ok ((xs.map g).flatten) := by
  intro xs
  induction xs with
  | nil => intro _; simp [normLoop]
  | cons x rest ih =>
    intro h
    have hx := h x (by simp)
    have hr := ih fun y hy => h y (by simp [hy])
    simp [normLoop, hx, hr, except_bind_ok]

theorem normItem_turn (a b : String) : normItem (mkTurn a b) = .ok [mkTurn a b] := rfl

theorem pairMessages_shape :
    ∀ msgs : List PyVal, ∀ t ∈ pairMessages msgs, ∃ u v : String, t = mkTurn u v
  | [] => by simp [pairMessages]
  | [x] => by
    simp only [pairMessages, List.mem_singleton]
    intro t ht
    exact ⟨_, _, ht⟩
  | x :: y :: rest => by
    simp only [pairMessages, List.mem_cons]
    intro t ht
    rcases ht with ht | ht
    · exact ⟨_, _, ht⟩
    · exact pairMessages_shape rest t ht

theorem normSeqItem_shape (xs : List PyVal) (r : List PyVal) (h : normSeqItem xs = .ok r) :
    ∀ t ∈ r, ∃ u v : String, t = mkTurn u v := by
  match xs with
  | [a, b] =>
    simp only [normSeqItem, Except.ok.injEq] at h
    subst h
    intro t ht
    simp only [List.mem_singleton] at ht
    exact ⟨_, _, ht⟩
  | [a] =>
    simp only [normSeqItem, Except.ok.injEq] at h
    subst h
    intro t ht
    simp only [List.mem_singleton] at ht
    exact ⟨_, _, ht⟩
  | [] => simp [normSeqItem] at h
  | a :: b :: c :: rest =>
    simp only [normSeqItem, Except.ok.injEq] at h
    subst h
    intro t ht
    simp only [List.mem_singleton] at ht
    exact ⟨_, _, ht⟩

theorem shape_of_singleton (u v : String) (r : List PyVal) (h : [mkTurn u v] = r) :
    ∀ t ∈ r, ∃ a b : String, t = mkTurn a b := by
  subst h
  intro t ht
  simp only [List.mem_singleton] at ht
  exact ⟨_, _, ht⟩

theorem normItem_shape (x : PyVal) (r : List PyVal) (h : normItem x = .ok r) :
    ∀ t ∈ r, ∃ u v : String, t = mkTurn u v := by
  match x with
  | .list xs => exact normSeqItem_shape xs r h
  | .tuple xs => exact normSeqItem_shape xs r h
  | .str s =>
    simp only [normItem, Except.ok.injEq] at h
    exact shape_of_singleton _ _ r h
  | .int n =>
    simp only [normItem, Except.ok.injEq] at h
    exact shape_of_singleton _ _ r h
  | .bool b =>
    simp only [normItem, Except.ok.injEq] at h
    exact shape_of_singleton _ _ r h
  | .none =>
    simp only [normItem, Except.ok.injEq] at h
    exact shape_of_singleton _ _ r h
  | .dict kvs =>
    simp only [normItem] at h
    by_cases h1 : (hasKey kvs "user" || hasKey kvs "bot") = true
    · rw [if_pos h1] at h
      simp only [Except.ok.injEq] at h
      exact shape_of_singleton _ _ r h
    · rw [if_neg h1] at h
      by_cases h2 : (hasKey kvs "role" && hasKey kvs "content") = true
      · rw [if_pos h2] at h
        by_cases h3 : isUserRole (dget? kvs "role") = true
        · rw [if_pos h3] at h
          simp only [Except.ok.injEq] at h
          exact shape_of_singleton _ _ r h
        · rw [if_neg h3] at h
          simp only [Except.ok.injEq] at h
          exact shape_of_singleton _ _ r h
      · rw [if_neg h2] at h
        cases hm : dget? kvs "messages" with
        | none =>
          rw [hm] at h
          simp only [Except.ok.injEq] at h
          exact shape_of_singleton _ _ r h
        | some v =>
          rw [hm] at h
          match v with
          | .list msgs =>
            simp only [Except.ok.injEq] at h
            subst h
            exact pairMessages_shape msgs
          | .tuple msgs =>
            simp only [Except.ok.injEq] at h
            subst h
            exact pairMessages_shape msgs
          | .str s =>
            simp only [Except.ok.injEq] at h
            exact shape_of_singleton _ _ r h
          | .int n =>
            simp only [Except.ok.injEq] at h
            exact shape_of_singleton _ _ r h
          | .bool b =>
            simp only [Except.ok.injEq] at h
            exact shape_of_singleton _ _ r h
          | .none =>
            simp only [Except.ok.injEq] at h
            exact shape_of_singleton _ _ r h
          | .dict kvs2 =>
            simp only [Except.ok.injEq] at h
            exact shape_of_singleton _ _ r h

theorem normLoop_shape :
    ∀ xs r, normLoop xs = .ok r → ∀ t ∈ r, ∃ u v : String, t = mkTurn u v := by
  intro xs
  induction xs with
  | nil =>
    intro r h
    simp only [normLoop, Except.ok.injEq] at h
    subst h
    simp
  | cons x rest ih =>
    intro r h
    simp only [normLoop] at h
    cases hx : normItem x with
    | error e => rw [hx, except_bind_error] at h; simp at h
    | ok tx =>
      rw [hx, except_bind_ok] at h
      cases hr : normLoop rest with
      | error e => rw [hr] at h; simp at h
      | ok tr =>
        rw [hr] at h
        have h2 : tx ++ tr = r := Except.ok.inj h
        subst h2
        intro t ht
        rcases List.mem_append.mp ht with ht | ht
        · exact normItem_shape x tx hx t ht
        · exact ih tr hr t ht

/-- Every turn of a successful normalization is a two-element list of
strings (shared shape lemma). -/
theorem normalize_history_shape (h : PyVal) (r : List PyVal)
    (hr : normalize_history h = .ok r) : ∀ t ∈ r, ∃ u v : String, t = mkTurn u v := by
  by_cases ht : truthy h = true
  · simp only [normalize_history, ht, if_true] at hr
    cases he : elements h with
    | error e => rw [he] at hr; exact absurd hr (by simp [Except.bind])
    | ok items =>
      rw [he] at hr
      exact normLoop_shape items r hr
  · simp only [normalize_history, ht, if_false] at hr
    cases hr
    simp

theorem normLoop_map_of (f : PyVal → PyVal) :
    ∀ xs : List PyVal, (∀ x ∈ xs, normItem x = .ok [f x]) →
      normLoop xs = .ok (xs.map f) := by
  intro xs
  induction xs with
  | nil => intro _; simp [normLoop]
  | cons x rest ih =>
    intro h
    have hx := h x (by simp)
    have hr := ih fun y hy => h y (by simp [hy])
    simp [normLoop, hx, hr, except_bind_ok]

/-- A two-element list or tuple, Python-side `len(item) == 2`. -/
def pair2? : PyVal → Option (PyVal × PyVal)
  | .list [a, b] => some (a, b)
  | .tuple [a, b] => some (a, b)
  | _ => Option.none

/-- The turn produced from an exact pair: both sides string-coerced. -/
def pairTurn (x : PyVal) : PyVal :=
  match pair2? x with
  | some (a, b) => mkTurn (pyStr a) (pyStr b)
  | Option.none => mkTurn "" ""

theorem normItem_pair (x : PyVal) (h : (pair2? x).isSome = true) :
    normItem x = .ok [pairTurn x] := by
  match x with
  | .list [a, b] => rfl
  | .tuple [a, b] => rfl
  | .list [] => simp [pair2?] at h
  | .list [a] => simp [pair2?] at h
  | .list (a :: b :: c :: rest) => simp [pair2?] at h
  | .tuple [] => simp [pair2?] at h
  | .tuple [a] => simp [pair2?] at h
  | .tuple (a :: b :: c :: rest) => simp [pair2?] at h
  | .str s => simp [pair2?] at h
  | .int n => simp [pair2?] at h
  | .bool b => simp [pair2?] at h
  | .none => simp [pair2?] at h
  | .dict kvs => simp [pair2?] at h

/-- The turn produced from a single role/content message dict: user role
puts the content on the user side, any other role on the assistant
side. -/
def roleContentTurn (m : List (String × PyVal)) : PyVal :=
  if isUserRole (dget? m "role") then mkTurn (pyStr (dgetD m "content" (.str ""))) ""
  else mkTurn "" (pyStr (dgetD m "content" (.str "")))

theorem normItem_roleContent (m : List (String × PyVal))
    (hr : hasKey m "role" = true) (hc : hasKey m "content" = true)
    (hu : hasKey m "user" = false) (hb : hasKey m "bot" = false) :
    normItem (.dict m) = .ok [roleContentTurn m] := by
  simp only [normItem, hu, hb, hr, hc, Bool.or_self, Bool.and_self, if_false, if_true,
    roleContentTurn]
  by_cases h3 : isUserRole (dget? m "role") = true
  · simp [h3]
  · simp [h3]

/-- Two-at-a-time grouping of a content list, as the specification
words it: one turn per index pair (0,1), (2,3), ...; a trailing
unpaired content goes to the user side with an empty assistant side. -/
def chunk2 : List String → List PyVal
  | [] => []
  | [c] => [mkTurn c ""]
  | c1 :: c2 :: rest => mkTurn c1 c2 :: chunk2 rest

theorem pairMessages_mkRC :
    ∀ rcs : List (PyVal × PyVal),
      pairMessages (rcs.map fun rc => PyVal.dict [("role", rc.1), ("content", rc.2)]) =
        chunk2 (rcs.map fun rc => pyStr rc.2)
  | [] => rfl
  | [rc] => by
    simp [pairMessages, chunk2, msgText, dgetD, dget?, pyStr]
  | rc1 :: rc2 :: rest => by
    simp only [List.map_cons, pairMessages, chunk2]
    rw [pairMessages_mkRC rest]
    simp [msgText, dgetD, dget?]

theorem unpack2_mkTurn (a b : String) : unpack2 (mkTurn a b) = .ok (.str a, .str b) := rfl

/-!  Claim theorems. -/

/-- C1: the spec says conversion is total and that a zero-length
list/tuple element or a non-iterable top-level input degrades to a
string-coerced single-user turn, but `normalize_history` raises: a
zero-length list element reaches the `else` branch of the length
dispatch (whose own comment assumes more than 2 elements) and its
`item[0]` raises `IndexError`, and a truthy non-iterable top-level
input such as `5` raises `TypeError` at `enumerate(history)`. -/
theorem c1_normalize_history_raises :
    normalize_history (.list [.list []]) = .error "IndexError: list index out of range" ∧
    normalize_history (.int 5) = .error "TypeError: object is not iterable" :=
  ⟨rfl, rfl⟩

/-- C5: every element of a successful `normalize_history` result is a
two-element turn whose user and assistant fields are both strings, in
every recognized and fallback branch alike. -/
theorem c5_turn_fields_are_strings (h : PyVal) (r : List PyVal)
    (hr : normalize_history h = .ok r) : ∀ t ∈ r, ∃ u v : String, t = mkTurn u v :=
  normalize_history_shape h r hr

theorem c5_turn_fields_are_strings_witness :
    normalize_history (.list [.str "hi"]) = .ok [mkTurn "hi" ""] ∧
    (∃ u v : String, mkTurn "hi" "" = mkTurn u v) :=
  ⟨rfl, c5_turn_fields_are_strings (.list [.str "hi"]) [mkTurn "hi" ""] rfl
    (mkTurn "hi" "") (by simp)⟩

/-- C6: a history whose elements are all two-element lists or tuples
normalizes to one turn per pair, same length, each side being the
Python string coercion of the corresponding element; `None` coerces to
"None", `123` to "123", `True` to "True". -/
theorem c6_exact_pairs (xs : List PyVal) (h : ∀ x ∈ xs, (pair2? x).isSome = true) :
    normalize_history (.list xs) = .ok (xs.map pairTurn) ∧
    (xs.map pairTurn).length = xs.length ∧
    pyStr PyVal.none = "None" ∧ pyStr (.int 123) = "123" ∧ pyStr (.bool true) = "True" := by
  refine ⟨?_, by simp, rfl, rfl, rfl⟩
  rw [normalize_history_list]
  exact normLoop_map_of pairTurn xs fun x hx => normItem_pair x (h x hx)

theorem c6_exact_pairs_witness :
    (∀ x ∈ [PyVal.list [.int 123, PyVal.none], PyVal.tuple [.bool true, .str "x"]],
      (pair2? x).isSome = true) ∧
    normalize_history (.list [PyVal.list [.int 123, PyVal.none], PyVal.tuple [.bool true, .str "x"]])
      = .ok [mkTurn "123" "None", mkTurn "True" "x"] :=
  ⟨by decide, (c6_exact_pairs _ (by decide)).1⟩

/-- C7: a list or tuple element with more than two elements becomes one
turn: the first element string-coerced on the user side, the remaining
elements string-coerced and joined with single spaces on the assistant
side; in particular `["Hello","Hi","there","friend"]` yields
`["Hello", "Hi there friend"]`. -/
theorem c7_long_sequences :
    (∀ (a x y : PyVal) (rest : List PyVal),
      normItem (.list (a :: x :: y :: rest)) =
        .ok [mkTurn (pyStr a) (String.intercalate " " ((x :: y :: rest).map pyStr))] ∧
      normItem (.tuple (a :: x :: y :: rest)) =
        .ok [mkTurn (pyStr a) (String.intercalate " " ((x :: y :: rest).map pyStr))]) ∧
    normalize_history (.list [.list [.str "Hello", .str "Hi", .str "there", .str "friend"]]) =
      .ok [mkTurn "Hello" "Hi there friend"] :=
  ⟨fun _ _ _ _ => ⟨rfl, rfl⟩, rfl⟩

/-- C9: `normalize_history` is idempotent on its own outputs: a
successful result, fed back in as a history, normalizes to itself
(each output turn re-enters the exact-pair branch unchanged). -/
theorem c9_idempotent (h : PyVal) (r : List PyVal)
    (hr : normalize_history h = .ok r) : normalize_history (.list r) = .ok r := by
  have hs := normalize_history_shape h r hr
  rw [normalize_history_list]
  have hitem : ∀ t ∈ r, normItem t = .ok [t] := by
    intro t ht
    obtain ⟨u, v, rfl⟩ := hs t ht
    exact normItem_turn u v
  have := normLoop_map_of id r (by simpa using hitem)
  simpa using this

theorem c9_idempotent_witness :
    normalize_history (.list [.list [.str "a", .str "b"], .str "c"])
      = .ok [mkTurn "a" "b", mkTurn "c" ""] ∧
    normalize_history (.list [mkTurn "a" "b", mkTurn "c" ""])
      = .ok [mkTurn "a" "b", mkTurn "c" ""] :=
  ⟨rfl, c9_idempotent (.list [.list [.str "a", .str "b"], .str "c"])
    [mkTurn "a" "b", mkTurn "c" ""] rfl⟩

/-- C3 as stated is false: the user/bot branch is tested before the
role/content branch, so a mapping that contains `"role"` and
`"content"` but also `"user"` is converted by the user/bot rule, not
the per-message rule (which would give `["x", ""]`). -/
theorem c3_counterexample :
    normalize_history
        (.list [.dict [("user", .str "y"), ("role", .str "user"), ("content", .str "x")]])
      = .ok [mkTurn "y" ""] ∧ mkTurn "y" "" ≠ mkTurn "x" "" :=
  ⟨rfl, by simp [mkTurn]⟩

/-- C3 amended: a sequence of mappings that each contain `"role"` and
`"content"` keys and neither a `"user"` nor a `"bot"` key normalizes
to one independent turn per message (user role puts the content on the
user side, any other role on the assistant side); four alternating
user/assistant messages yield four turns, not two. -/
theorem c3_role_content_amended :
    (∀ ms : List (List (String × PyVal)),
      (∀ m ∈ ms, hasKey m "role" = true ∧ hasKey m "content" = true ∧
        hasKey m "user" = false ∧ hasKey m "bot" = false) →
      normalize_history (.list (ms.map PyVal.dict)) = .ok (ms.map roleContentTurn)) ∧
    normalize_history (.list [mkMsg "user" "Hello", mkMsg "assistant" "Hi!",
        mkMsg "user" "How are you?", mkMsg "assistant" "Good!"])
      = .ok [mkTurn "Hello" "", mkTurn "" "Hi!", mkTurn "How are you?" "", mkTurn "" "Good!"] := by
  refine ⟨?_, rfl⟩
  intro ms h
  rw [normalize_history_list]
  have hmap := normLoop_map_of
      (fun x => match x with | PyVal.dict m => roleContentTurn m | _ => mkTurn "" "")
      (ms.map PyVal.dict) ?_
  · rw [hmap, List.map_map]
    rfl
  · intro x hx
    obtain ⟨m, hm, rfl⟩ := List.mem_map.mp hx
    simpa using normItem_roleContent m (h m hm).1 (h m hm).2.1 (h m hm).2.2.1 (h m hm).2.2.2

theorem c3_role_content_amended_witness :
    (∀ m ∈ [[("role", PyVal.str "user"), ("content", PyVal.str "Hello")]],
      hasKey m "role" = true ∧ hasKey m "content" = true ∧
      hasKey m "user" = false ∧ hasKey m "bot" = false) ∧
    normalize_history (.list [PyVal.dict [("role", .str "user"), ("content", .str "Hello")]])
      = .ok [mkTurn "Hello" ""] :=
  ⟨by decide,
    c3_role_content_amended.1 [[("role", PyVal.str "user"), ("content", PyVal.str "Hello")]]
      (by decide)⟩

/-- C4 as stated is false: the user/bot branch is tested before the
messages branch, so a mapping that contains `"messages"` but also
`"user"` is converted by the user/bot rule, not by two-at-a-time
grouping of the nested messages. -/
theorem c4_counterexample :
    normalize_history (.list [.dict [("user", .str "z"),
        ("messages", .list [mkMsg "user" "m1", mkMsg "assistant" "m2"])]])
      = .ok [mkTurn "z" ""] ∧ mkTurn "z" "" ≠ mkTurn "m1" "m2" :=
  ⟨rfl, by simp [mkTurn]⟩

/-- C4 amended: a mapping whose keys trigger no earlier branch (no
`"user"` or `"bot"` key, not both `"role"` and `"content"`) and whose
`"messages"` value is a sequence of role/content mappings is converted
by grouping the messages two at a time: each index pair (0,1), (2,3),
... becomes one turn of the two string-coerced contents, and a
trailing unpaired message becomes a turn with empty assistant side. -/
theorem c4_messages_amended :
    (∀ (kvs : List (String × PyVal)) (msgs : List PyVal),
      hasKey kvs "user" = false → hasKey kvs "bot" = false →
      (hasKey kvs "role" && hasKey kvs "content") = false →
      dget? kvs "messages" = some (.list msgs) →
      normItem (.dict kvs) = .ok (pairMessages msgs)) ∧
    (∀ rcs : List (PyVal × PyVal),
      pairMessages (rcs.map fun rc => PyVal.dict [("role", rc.1), ("content", rc.2)]) =
        chunk2 (rcs.map fun rc => pyStr rc.2)) ∧
    (∀ msgs : List PyVal,
      normalize_history (.list [.dict [("messages", .list msgs)]]) = .ok (pairMessages msgs)) := by
  refine ⟨?_, pairMessages_mkRC, ?_⟩
  · intro kvs msgs hu hb hrc hm
    simp [normItem, hu, hb, hrc, hm]
  · intro msgs
    rw [normalize_history_list]
    have h1 : normItem (.dict [("messages", .list msgs)]) = .ok (pairMessages msgs) := by
      simp [normItem, hasKey, dget?]
    simp [normLoop, h1, except_bind_ok]

theorem c4_messages_amended_witness :
    hasKey [("messages",
        PyVal.list [mkMsg "user" "Hello", mkMsg "assistant" "Hi!", mkMsg "user" "Bye"])]
      "user" = false ∧
    normItem (.dict [("messages",
        PyVal.list [mkMsg "user" "Hello", mkMsg "assistant" "Hi!", mkMsg "user" "Bye"])])
      = .ok [mkTurn "Hello" "Hi!", mkTurn "Bye" ""] :=
  ⟨by decide,
    c4_messages_amended.1
      [("messages", PyVal.list [mkMsg "user" "Hello", mkMsg "assistant" "Hi!", mkMsg "user" "Bye"])]
      [mkMsg "user" "Hello", mkMsg "assistant" "Hi!", mkMsg "user" "Bye"]
      (by decide) (by decide) (by decide) rfl⟩

/-- C8: the pair-to-dict step of `to_internal_history` appends, per
turn in order, a user message exactly when the user side is non-empty,
then an assistant message exactly when the assistant side is
non-empty; an all-empty turn contributes zero messages. -/
theorem c8_turns_to_messages :
    (∀ ts : List (String × String),
      pairsToInternal (ts.map fun t => mkTurn t.1 t.2) =
        .ok (ts.flatMap fun t =>
          (if t.1 != "" then [mkMsg "user" t.1] else []) ++
          (if t.2 != "" then [mkMsg "assistant" t.2] else []))) ∧
    pairsToInternal [mkTurn "" ""] = .ok [] := by
  refine ⟨?_, rfl⟩
  intro ts
  induction ts with
  | nil => rfl
  | cons t rest ih =>
    simp only [List.map_cons, pairsToInternal, unpack2_mkTurn, except_bind_ok, ih,
      Except.map_ok, List.flatMap_cons]
    simp only [truthy, mkMsg, List.append_assoc, bne_iff_ne, ne_eq, ite_not]
    rfl

/-- C10: `to_internal_history` dispatches on the first element only: a
non-empty list or tuple whose head is a dict containing `"role"` is
returned unchanged (later elements of any shape included); otherwise
the whole history goes through `normalize_history` and the pair-to-dict
step. -/
theorem c10_first_element_dispatch :
    (∀ (kvs : List (String × PyVal)) (rest : List PyVal),
      hasKey kvs "role" = true →
      to_internal_history (.list (PyVal.dict kvs :: rest)) = .ok (PyVal.dict kvs :: rest) ∧
      to_internal_history (.tuple (PyVal.dict kvs :: rest)) = .ok (PyVal.dict kvs :: rest)) ∧
    (∀ (x : PyVal) (rest : List PyVal), startsWithRoleDict (x :: rest) = false →
      to_internal_history (.list (x :: rest)) =
        (normalize_history (.list (x :: rest))).bind pairsToInternal ∧
      to_internal_history (.tuple (x :: rest)) =
        (normalize_history (.tuple (x :: rest))).bind pairsToInternal) := by
  constructor
  · intro kvs rest h
    constructor <;>
      simp [to_internal_history, truthy, seqElems?, startsWithRoleDict, h]
  · intro x rest h
    constructor <;>
      simp [to_internal_history, truthy, seqElems?, h]

/-- C2: the legacy-pairs conversion (non-v6 branch of
`to_gradio_history`) scans a flat role/content message list exactly as
specified: it consumes a maximal run of consecutive user messages,
joining contents with newline separators, then a maximal run of
consecutive assistant messages likewise, emits the pair exactly when a
side is non-empty, skips one position for a message of any other role,
and repeats; in particular [user "A", user "B", assistant "C"] gives
exactly [("A\nB", "C")]. -/
theorem c2_legacy_pairs_scan :
    (∀ l : List SDict, to_gradio_history_legacy l = specLegacyPairs l) ∧
    to_gradio_history_legacy
        [[("role", "user"), ("content", "A")], [("role", "user"), ("content", "B")],
          [("role", "assistant"), ("content", "C")]] = [("A\nB", "C")] := by
  refine ⟨to_gradio_history_legacy_eq_spec, ?_⟩
  simp [to_gradio_history_legacy, takeRoleRun, isRole, sget?, sgetD, joinStep]

theorem c10_first_element_dispatch_witness :
    hasKey [("role", PyVal.str "user")] "role" = true ∧
    to_internal_history (.list [PyVal.dict [("role", .str "user")], .str "stray"])
      = .ok [PyVal.dict [("role", .str "user")], .str "stray"] :=
  ⟨by decide,
    (c10_first_element_dispatch.1 [("role", PyVal.str "user")] [.str "stray"] (by decide)).1⟩

end LinguaTravel
